import Mathlib

/-
  Verification development for the `useForm` hook (src/src/index.ts).

  The TypeScript source is shallowly embedded: JavaScript runtime values are
  the inductive `JVal`, field trees are the mutual inductive `Field`/`FVal`,
  user validator functions are modelled by their observable outcome `VResult`
  (synchronous return, resolved promise, synchronous throw, rejected promise),
  and code that can raise an uncaught exception is modelled in `Except Unit`.

  Caveats of the embedding, stated once here:
  * JavaScript strict equality (`===`) is modelled structurally for primitive
    values only (`jsEqPrim`); object/Date reference identity is not modelled.
    Theorems relying on the equality guard are restricted to primitive values.
  * `mapFieldsDeep` in the source writes the recursively updated children into
    the `value` property (not into `items`/`fields`); the constructors
    `FVal.farr`/`FVal.fobj` represent such values that hold field nodes.
    Re-building a field from such a value (which the source would traverse as
    a plain object) is outside the modelled flows; the array re-build helpers
    keep those values opaque, and the theorems about them carry plain-value
    hypotheses.
-/

set_option maxHeartbeats 1000000

namespace UseForm

/-- A step of a field `path`: an object key or an array index
(`Array<string | number>` in the source). -/
inductive Key where
  | key (s : String)
  | idx (n : Nat)
deriving DecidableEq, Repr

/-- A plain JavaScript value: primitives (including `null`, `undefined` and
`Date`, which the source treats as primitive leaves), arrays, and keyed
records. -/
inductive JVal where
  | null
  | undefined
  | str (s : String)
  | num (n : Int)
  | bool (b : Bool)
  | date (t : Int)
  | arr (xs : List JVal)
  | obj (fs : List (String × JVal))
deriving Repr

/-- The values a field `error` slot can hold: the source types it
`string | undefined | null` and the change path can also store a literal
`false` returned by a validator. -/
inductive ErrVal where
  | undefined
  | nul
  | fals
  | str (s : String)
deriving DecidableEq, Repr

/-- JavaScript truthiness of an error value: only a non-empty string is
truthy. -/
def ErrVal.truthy : ErrVal → Bool
  | .str s => !(s == "")
  | _ => false

/-- Observable outcome of calling one user validator function
(`ValidateFunc`): a synchronous result, a promise resolving to a result, a
synchronous throw, or a promise that rejects. -/
inductive VResult where
  | sync (e : ErrVal)
  | async (e : ErrVal)
  | throws
  | rejects
deriving Repr

/-- The per-node state every field variant carries (`FormField<TValue>` minus
the `set`/`touch` closures, which are modelled as the operations below). -/
structure Core (V : Type) where
  path : List Key
  touched : Bool
  error : ErrVal
  validating : Bool
  disabled : Bool
  value : V
deriving Repr

mutual
/-- A field node: `PrimitiveField`, `ArrayField` (with `items`) or
`ComplexField` (with `fields`), discriminated by `type` in the source. -/
inductive Field where
  | prim (c : Core FVal)
  | arr (c : Core FVal) (items : List Field)
  | cpx (c : Core FVal) (fields : List (String × Field))

/-- The content of a field's `value` property.  Normally a plain value; after
the source's `mapFieldsDeep` it can be an array/record of field nodes. -/
inductive FVal where
  | plain (v : JVal)
  | farr (xs : List Field)
  | fobj (fs : List (String × Field))
end

/-- The state shared by the three field variants. -/
def coreOf : Field → Core FVal
  | .prim c => c
  | .arr c _ => c
  | .cpx c _ => c

/-- The `items` of an array field (empty for other variants). -/
def itemsOf : Field → List Field
  | .arr _ items => items
  | _ => []

/-- The `fields` of a complex field (empty for other variants). -/
def fieldsOf : Field → List (String × Field)
  | .cpx _ fs => fs
  | _ => []

/-- Replace the shared state of a field, keeping variant and children: the
spread `{ ...prev, ... }` of the source when only `FormField` properties are
updated. -/
def withCore (f : Field) (u : Core FVal → Core FVal) : Field :=
  match f with
  | .prim c => .prim (u c)
  | .arr c items => .arr (u c) items
  | .cpx c fs => .cpx (u c) fs

/-- The `type` discriminator. -/
inductive Variant where
  | primitive
  | array
  | complex
deriving DecidableEq, Repr

def variantOf : Field → Variant
  | .prim _ => .primitive
  | .arr _ _ => .array
  | .cpx _ _ => .complex

/-- Whether a `value` is a plain value (no field nodes inside). -/
def FVal.isPlain : FVal → Bool
  | .plain _ => true
  | _ => false

/-- `getBasicField` (src lines 565-581): fresh per-node state. -/
def basicCore (path : List Key) (v : FVal) : Core FVal :=
  { path := path, touched := false, error := .undefined, validating := false,
    disabled := false, value := v }

mutual
/-- `createFormField` (src lines 348-369): classification of the initial
value.  `Array.isArray` picks the array variant; non-null, non-`Date`
objects pick the complex variant; everything else (null, undefined,
primitives, dates) is a primitive field. -/
def createFormField : JVal → List Key → Field
  | .arr xs, path => .arr (basicCore path (.plain (.arr xs))) (buildItems xs path 0)
  | .obj fs, path => .cpx (basicCore path (.plain (.obj fs))) (buildFields fs path)
  | v, path => .prim (basicCore path (.plain v))

/-- Items of `createArrayFormField`: `initValue.map(createFormFieldInArray)`,
each child built at path `[...path, index]`. -/
def buildItems : List JVal → List Key → Nat → List Field
  | [], _, _ => []
  | v :: rest, path, i => createFormField v (path ++ [.idx i]) :: buildItems rest path (i + 1)

/-- Fields of `createComplexFormFieldValues`: `mapValues(value, ...)`, each
child built at path `[...path, key]`. -/
def buildFields : List (String × JVal) → List Key → List (String × Field)
  | [], _ => []
  | (k, v) :: rest, path => (k, createFormField v (path ++ [.key k])) :: buildFields rest path
end

/-- `Object.keys`-style enumeration used by `mapValues`: a record's own keys,
or an array's indices as string keys. -/
def enumStr (i : Nat) : List JVal → List (String × JVal)
  | [] => []
  | v :: rest => (toString i, v) :: enumStr (i + 1) rest

def objEntries : JVal → List (String × JVal)
  | .obj fs => fs
  | .arr xs => enumStr 0 xs
  | _ => []

/-- `createComplexFormField` applied to a raw value (src lines 466-519, as
reached from `createPrimitiveFormField`'s `setValue`): a fresh complex field
whose `fields` are built from the value's own enumerable keys. -/
def createComplexFromValue (v : JVal) (path : List Key) : Field :=
  .cpx (basicCore path (.plain v)) (buildFields (objEntries v) path)

/-- The updater of the submit touch pass (src lines 274-278). -/
def touchDisable (c : Core FVal) : Core FVal :=
  { c with touched := true, disabled := true }

mutual
/-- `mapFieldsDeep` (src lines 119-134).  Note the source's array and complex
cases keep `items`/`fields` from `updater(x)` unchanged and write the
recursively mapped children into the `value` property. -/
def mapFieldsDeep (u : Core FVal → Core FVal) : Field → Field
  | .prim c => .prim (u c)
  | .arr c items => .arr { u c with value := .farr (mapFieldsDeepL u items) } items
  | .cpx c fs => .cpx { u c with value := .fobj (mapFieldsDeepP u fs) } fs

def mapFieldsDeepL (u : Core FVal → Core FVal) : List Field → List Field
  | [] => []
  | f :: rest => mapFieldsDeep u f :: mapFieldsDeepL u rest

def mapFieldsDeepP (u : Core FVal → Core FVal) : List (String × Field) → List (String × Field)
  | [] => []
  | (k, f) :: rest => (k, mapFieldsDeep u f) :: mapFieldsDeepP u rest
end

mutual
/-- `containsError` (src lines 217-229): the node's own `error` is truthy, or
some item / keyed child contains an error. -/
def containsError : Field → Bool
  | .prim c => c.error.truthy
  | .arr c items => c.error.truthy || containsErrorL items
  | .cpx c fs => c.error.truthy || containsErrorP fs

def containsErrorL : List Field → Bool
  | [] => false
  | f :: rest => containsError f || containsErrorL rest

def containsErrorP : List (String × Field) → Bool
  | [] => false
  | (_, f) :: rest => containsError f || containsErrorP rest
end

mutual
/-- The `error` values of every node of a field tree (the node itself and
every descendant reachable through `items`/`fields`), in preorder.  This is
the specification-level notion "a node of the tree carries an error". -/
def errorsOf : Field → List ErrVal
  | .prim c => [c.error]
  | .arr c items => c.error :: errorsOfL items
  | .cpx c fs => c.error :: errorsOfP fs

def errorsOfL : List Field → List ErrVal
  | [] => []
  | f :: rest => errorsOf f ++ errorsOfL rest

def errorsOfP : List (String × Field) → List ErrVal
  | [] => []
  | (_, f) :: rest => errorsOf f ++ errorsOfP rest
end

/-- A validation rule node (`ConditionalValidation`): optional `onChange` and
`onSubmit` validator functions, plus the children rules of the array
(`item`) and complex (`fields`) shapes.  A missing property reads as
`undefined` in the source, hence the `Option`s. -/
inductive VRule where
  | mk (onChange : Option (FVal → VResult)) (onSubmit : Option (FVal → VResult))
       (item : Option VRule) (fields : Option (List (String × VRule)))

def VRule.onChange : VRule → Option (FVal → VResult)
  | .mk oc _ _ _ => oc

def VRule.onSubmit : VRule → Option (FVal → VResult)
  | .mk _ os _ _ => os

def VRule.item : VRule → Option VRule
  | .mk _ _ it _ => it

def VRule.fields : VRule → Option (List (String × VRule))
  | .mk _ _ _ fs => fs

/-- `await` of a validator call: a resolved value, or an uncaught failure
(synchronous throw or rejected promise). -/
def awaitVR : VResult → Except Unit ErrVal
  | .sync e => .ok e
  | .async e => .ok e
  | .throws => .error ()
  | .rejects => .error ()

/-- The `onSubmit` half of `validateValue`: adopt a truthy result, otherwise
fall off the end returning `undefined`. -/
def runOnSubmitRule (value : FVal) (onSubmit : Option (FVal → VResult)) : Except Unit ErrVal :=
  match onSubmit with
  | none => .ok .undefined
  | some g => do
      let e ← awaitVR (g value)
      if e.truthy then pure e else pure .undefined

/-- `validateValue` (src lines 136-156): `onChange` first; a truthy result is
returned and `onSubmit` is skipped; otherwise `onSubmit` runs; a falsy
result of both reads as `undefined`. -/
def validateValue (value : FVal) (validator : Option VRule) : Except Unit ErrVal :=
  match validator with
  | none => .ok .undefined
  | some vr =>
      match vr.onChange with
      | none => runOnSubmitRule value vr.onSubmit
      | some f => do
          let e ← awaitVR (f value)
          if e.truthy then pure e else runOnSubmitRule value vr.onSubmit

mutual
/-- `mergeInValidationResults` (src lines 158-196): with no validators the
field is returned untouched; otherwise every item is merged against the
rule's `item`, every keyed child against the rule's keyed sub-rule (missing
key or missing `fields` means no validators for that child), and the node's
own `error` is replaced by `validateValue` of the node's `value`.  A
validator throw or rejection rejects the whole merge. -/
def mergeInValidationResults : Field → Option VRule → Except Unit Field
  | f, none => .ok f
  | .arr c items, some vr => do
      let its ← mergeItems items vr.item
      let e ← validateValue c.value (some vr)
      pure (.arr { c with error := e } its)
  | .cpx c fs, some vr => do
      let fs2 ← mergeFields fs vr.fields
      let e ← validateValue c.value (some vr)
      pure (.cpx { c with error := e } fs2)
  | .prim c, some vr => do
      let e ← validateValue c.value (some vr)
      pure (.prim { c with error := e })

def mergeItems : List Field → Option VRule → Except Unit (List Field)
  | [], _ => .ok []
  | f :: rest, itemRule => do
      let f2 ← mergeInValidationResults f itemRule
      let r2 ← mergeItems rest itemRule
      pure (f2 :: r2)

def mergeFields : List (String × Field) → Option (List (String × VRule)) → Except Unit (List (String × Field))
  | [], _ => .ok []
  | (k, f) :: rest, fieldRules => do
      let f2 ← mergeInValidationResults f (fieldRules.bind fun l => l.lookup k)
      let r2 ← mergeFields rest fieldRules
      pure ((k, f2) :: r2)
end

/-- Observable outcome of one call to `submit()` (src lines 260-310):
whether the guarded body ran, the state committed by the synchronous
touch-and-disable pass, the outcome of the validation merge (an
`Except.error` is a validator failure escaping to the caller of `submit()`),
and the argument the external `onSubmit` callback was invoked with
(`none` when it was not invoked). -/
structure SubmitOutcome where
  ran : Bool
  touchedState : Field
  merged : Except Unit Field
  submitArg : Option FVal

/-- One call to `submit()`.  While `submitting` it is a no-op; otherwise the
whole tree goes through `mapFieldsDeep` with `touched/disabled := true`, the
validation results are merged in, and the external callback is invoked with
the root's `value` exactly when `containsError` is false on the merged
state. -/
def submitRun (validation : Option VRule) (root : Field) (submitting : Bool) : SubmitOutcome :=
  if submitting then
    { ran := false, touchedState := root, merged := .ok root, submitArg := none }
  else
    let s1 := mapFieldsDeep touchDisable root
    match mergeInValidationResults s1 validation with
    | .error e => { ran := true, touchedState := s1, merged := .error e, submitArg := none }
    | .ok m =>
        if containsError m then
          { ran := true, touchedState := s1, merged := .ok m, submitArg := none }
        else
          { ran := true, touchedState := s1, merged := .ok m, submitArg := some (coreOf m).value }

/-- What the change-path validation of `getValdator` (src lines 326-346)
does immediately: commit `{ error, validating: false }` for a synchronous
result, commit `{ validating: true }` and register a resolution for a
promise, or let a synchronous throw escape. -/
inductive ChangeOutcome where
  | immediate (e : ErrVal)
  | pending (trigger : FVal)
  | thrown

/-- The immediate part of `getValdator`'s returned function: call
`validator.onChange(newValue)` if present (`undefined` otherwise), then
dispatch on whether the result is a thenable. -/
def executeValidation (onChange : Option (FVal → VResult)) (newValue : FVal) : ChangeOutcome :=
  match onChange with
  | none => .immediate .undefined
  | some f =>
      match f newValue with
      | .sync e => .immediate e
      | .throws => .thrown
      | .async _ => .pending newValue
      | .rejects => .pending newValue

/-- JavaScript strict equality `===`, modelled for plain primitive values
(null, undefined, string, number, boolean).  Dates and objects compare by
reference in JavaScript and are conservatively not equated here. -/
def jsEqPrim : FVal → FVal → Bool
  | .plain .null, .plain .null => true
  | .plain .undefined, .plain .undefined => true
  | .plain (.str a), .plain (.str b) => a == b
  | .plain (.num a), .plain (.num b) => a == b
  | .plain (.bool a), .plain (.bool b) => a == b
  | _, _ => false

/-- The commit performed when an asynchronous change validation settles
(src lines 336-341): the result is written only when the field's current
`value` still strictly equals the value that triggered the run; otherwise
the state is returned unchanged. -/
def commitAsync (trigger : FVal) (res : ErrVal) (c : Core FVal) : Core FVal :=
  if jsEqPrim trigger c.value then { c with error := res, validating := false } else c

/-- The resolution registered for a pending change validation: the `then`
handler commits the resolved value, the `catch` handler commits the fixed
sentinel `"Validation failed"`.  A validator that did not return a promise
registered no resolution. -/
def pendingResolution (f : FVal → VResult) (trigger : FVal) (c : Core FVal) : Core FVal :=
  match f trigger with
  | .async e => commitAsync trigger e c
  | .rejects => commitAsync trigger (.str "Validation failed") c
  | _ => c

/-- Whether a value takes the object branch of the source's classification:
`newValue !== null && !(newValue instanceof Date) && typeof newValue ===
"object"` (arrays included, `undefined` and primitives excluded). -/
def isObjLike : JVal → Bool
  | .obj _ => true
  | .arr _ => true
  | _ => false

/-- `setValue` of `createPrimitiveFormField` (src lines 529-542): when the
new value is object-like and the field at this position is not already
complex, the node is replaced by a freshly built complex field; otherwise
the value is stored and `onChange` validation is spread in (`{ error,
validating: false }` when synchronous, `{ validating: true }` with the
`error` untouched when asynchronous; a synchronous throw escapes). -/
def setOnPrim (onChange : Option (FVal → VResult)) (prev : Field) (newValue : JVal) : Except Unit Field :=
  if isObjLike newValue && !(variantOf prev == Variant.complex) then
    .ok (createComplexFromValue newValue (coreOf prev).path)
  else
    match executeValidation onChange (.plain newValue) with
    | .thrown => .error ()
    | .immediate e => .ok (withCore prev fun c =>
        { c with value := .plain newValue, error := e, validating := false })
    | .pending _ => .ok (withCore prev fun c =>
        { c with value := .plain newValue, validating := true })

/-- Spread `{ ...val, ...executeValidation(val.value) }` onto a field. -/
def applyChangeOutcome (f : Field) : ChangeOutcome → Except Unit Field
  | .thrown => .error ()
  | .immediate e => .ok (withCore f fun c => { c with error := e, validating := false })
  | .pending _ => .ok (withCore f fun c => { c with validating := true })

/-- `setterWithValidation` of `createArrayFormField` (src lines 378-388):
when an `onChange` rule exists for the array, the updated field is re-spread
with the change validation of its (already updated) `value`; otherwise the
updated field is committed as is. -/
def setterWithValidation (onChange : Option (FVal → VResult)) (f : Field) : Except Unit Field :=
  match onChange with
  | none => .ok f
  | some _ => applyChangeOutcome f (executeValidation onChange (coreOf f).value)

/-- `createFormFieldInArray` (src lines 390-405) applied to a raw item value:
a fresh field built at path `[...path, index]`.  The source passes the raw
item value straight to `createFormField`; values already holding field nodes
(only produced by `mapFieldsDeep` during submit) are kept opaque here. -/
def createFormFieldInArray (v : FVal) (path : List Key) (i : Nat) : Field :=
  match v with
  | .plain j => createFormField j (path ++ [.idx i])
  | fv => .prim (basicCore (path ++ [.idx i]) fv)

/-- The `.map((val, i) => createFormFieldInArray(val.value, i))` of
`remove`: every remaining item is rebuilt from its current `value` at its
new index. -/
def rebuildItems (path : List Key) (i : Nat) : List Field → List Field
  | [] => []
  | f :: rest => createFormFieldInArray (coreOf f).value path i :: rebuildItems path (i + 1) rest

/-- `remove(index)` (src lines 428-433): the item at `index` is filtered out
(`eraseIdx` is extensionally the source's `filter((__, i) => i !== index)`),
all remaining items are rebuilt at their new indices, the array is marked
`touched` and the change validation wrapper runs.  The array's own `value`
is not updated. -/
def removeOnArray (onChange : Option (FVal → VResult)) (k : Nat) (c : Core FVal)
    (items : List Field) : Except Unit Field :=
  setterWithValidation onChange
    (.arr { c with touched := true } (rebuildItems c.path 0 (items.eraseIdx k)))

/-- `prev.items.map((prevValue, prevIndex) => index === prevIndex ?
updater(prevValue) : prevValue)` with a fallible updater. -/
def updateItemAt (index : Nat) (u : Field → Except Unit Field) :
    Nat → List Field → Except Unit (List Field)
  | _, [] => .ok []
  | i, f :: rest => do
      let f2 ← if i = index then u f else pure f
      let r2 ← updateItemAt index u (i + 1) rest
      pure (f2 :: r2)

/-- `prev.value.map((prevRawValue, prevRawIndex) => index === prevRawIndex ?
val : prevRawValue)`: the raw array value with position `index` replaced by
the captured build-time value. -/
def setRawValueAt (v : FVal) (index : Nat) (newRaw : JVal) : FVal :=
  match v with
  | .plain (.arr xs) => .plain (.arr (xs.set index newRaw))
  | other => other

/-- A `set(newValue)` on the item at `index` of an array field, as routed
through the updater closure of `createFormFieldInArray` (src lines
395-404): the item is updated by its own primitive `set`, while the array's
raw `value` at that index is overwritten with `builtVal` — the value the
item's field node was built from, captured by the closure — and the array's
change validation wrapper runs. -/
def arrayChildSet (arrOnChange childOnChange : Option (FVal → VResult)) (builtVal : JVal)
    (index : Nat) (newValue : JVal) (c : Core FVal) (items : List Field) : Except Unit Field := do
  let its ← updateItemAt index (fun child => setOnPrim childOnChange child newValue) 0 items
  setterWithValidation arrOnChange (.arr { c with value := setRawValueAt c.value index builtVal } its)

/-- Fresh per-node state as produced by `getBasicField` plus an `undefined`
error. -/
def coreFresh (c : Core FVal) : Bool :=
  !c.touched && c.error == ErrVal.undefined && !c.validating && !c.disabled

mutual
/-- Every node of the tree carries fresh state. -/
def allFresh : Field → Bool
  | .prim c => coreFresh c
  | .arr c items => coreFresh c && allFreshL items
  | .cpx c fs => coreFresh c && allFreshP fs

def allFreshL : List Field → Bool
  | [] => true
  | f :: rest => allFresh f && allFreshL rest

def allFreshP : List (String × Field) → Bool
  | [] => true
  | (_, f) :: rest => allFresh f && allFreshP rest
end

theorem coreOf_createFormField (v : JVal) (p : List Key) :
    coreOf (createFormField v p) = basicCore p (.plain v) := by
  cases v <;> rfl

theorem coreOf_withCore (f : Field) (u : Core FVal → Core FVal) :
    coreOf (withCore f u) = u (coreOf f) := by
  cases f <;> rfl

theorem itemsOf_withCore (f : Field) (u : Core FVal → Core FVal) :
    itemsOf (withCore f u) = itemsOf f := by
  cases f <;> rfl

theorem variantOf_withCore (f : Field) (u : Core FVal → Core FVal) :
    variantOf (withCore f u) = variantOf f := by
  cases f <;> rfl

theorem setterWithValidation_ok (oc : Option (FVal → VResult)) (f f2 : Field)
    (h : setterWithValidation oc f = .ok f2) :
    itemsOf f2 = itemsOf f ∧ (coreOf f2).touched = (coreOf f).touched ∧
    (coreOf f2).path = (coreOf f).path ∧ (coreOf f2).value = (coreOf f).value ∧
    (coreOf f2).disabled = (coreOf f).disabled := by
  cases oc with
  | none =>
      simp [setterWithValidation] at h
      subst h
      exact ⟨rfl, rfl, rfl, rfl, rfl⟩
  | some g =>
      simp [setterWithValidation] at h
      cases hex : executeValidation (some g) (coreOf f).value with
      | thrown => rw [hex] at h; simp [applyChangeOutcome] at h
      | immediate e =>
          rw [hex] at h; simp [applyChangeOutcome] at h
          subst h
          simp [coreOf_withCore, itemsOf_withCore]
      | pending t =>
          rw [hex] at h; simp [applyChangeOutcome] at h
          subst h
          simp [coreOf_withCore, itemsOf_withCore]

theorem value_setOnPrim (oc : Option (FVal → VResult)) (prev : Field) (v : JVal) (f2 : Field)
    (h : setOnPrim oc prev v = .ok f2) :
    (coreOf f2).value = .plain v := by
  unfold setOnPrim at h
  split at h
  · simp at h
    subst h
    rfl
  · cases hex : executeValidation oc (.plain v) with
    | thrown => rw [hex] at h; simp at h
    | immediate e =>
        rw [hex] at h; simp at h; subst h; simp [coreOf_withCore]
    | pending t =>
        rw [hex] at h; simp at h; subst h; simp [coreOf_withCore]

mutual
theorem containsError_eq_any (f : Field) :
    containsError f = (errorsOf f).any ErrVal.truthy := by
  match f with
  | .prim c => simp [containsError, errorsOf]
  | .arr c items =>
      rw [containsError, errorsOf, containsErrorL_eq_any items]
      simp
  | .cpx c fs =>
      rw [containsError, errorsOf, containsErrorP_eq_any fs]
      simp

theorem containsErrorL_eq_any (xs : List Field) :
    containsErrorL xs = (errorsOfL xs).any ErrVal.truthy := by
  match xs with
  | [] => simp [containsErrorL, errorsOfL]
  | f :: rest =>
      rw [containsErrorL, errorsOfL, containsError_eq_any f, containsErrorL_eq_any rest]
      simp [List.any_append]

theorem containsErrorP_eq_any (fs : List (String × Field)) :
    containsErrorP fs = (errorsOfP fs).any ErrVal.truthy := by
  match fs with
  | [] => simp [containsErrorP, errorsOfP]
  | (k, f) :: rest =>
      rw [containsErrorP, errorsOfP, containsError_eq_any f, containsErrorP_eq_any rest]
      simp [List.any_append]
end

mutual
theorem allFresh_createFormField (v : JVal) (p : List Key) :
    allFresh (createFormField v p) = true := by
  match v with
  | .arr xs =>
      rw [createFormField, allFresh, allFreshL_buildItems xs p 0]
      simp [basicCore, coreFresh]
  | .obj fs =>
      rw [createFormField, allFresh, allFreshP_buildFields fs p]
      simp [basicCore, coreFresh]
  | .null => simp [createFormField, allFresh, basicCore, coreFresh]
  | .undefined => simp [createFormField, allFresh, basicCore, coreFresh]
  | .str s => simp [createFormField, allFresh, basicCore, coreFresh]
  | .num n => simp [createFormField, allFresh, basicCore, coreFresh]
  | .bool b => simp [createFormField, allFresh, basicCore, coreFresh]
  | .date t => simp [createFormField, allFresh, basicCore, coreFresh]

theorem allFreshL_buildItems (xs : List JVal) (p : List Key) (i : Nat) :
    allFreshL (buildItems xs p i) = true := by
  match xs with
  | [] => rfl
  | v :: rest =>
      rw [buildItems, allFreshL, allFresh_createFormField v (p ++ [Key.idx i]),
        allFreshL_buildItems rest p (i + 1)]
      rfl

theorem allFreshP_buildFields (fs : List (String × JVal)) (p : List Key) :
    allFreshP (buildFields fs p) = true := by
  match fs with
  | [] => rfl
  | (k, v) :: rest =>
      rw [buildFields, allFreshP, allFresh_createFormField v (p ++ [Key.key k]),
        allFreshP_buildFields rest p]
      rfl
end

theorem allFresh_createFormFieldInArray (v : FVal) (p : List Key) (i : Nat) :
    allFresh (createFormFieldInArray v p i) = true := by
  cases v with
  | plain j => rw [createFormFieldInArray]; exact allFresh_createFormField j (p ++ [.idx i])
  | farr xs => rfl
  | fobj fs => rfl

theorem core_createFormFieldInArray (v : FVal) (p : List Key) (i : Nat) :
    (coreOf (createFormFieldInArray v p i)).path = p ++ [Key.idx i] ∧
    (coreOf (createFormFieldInArray v p i)).value = v := by
  cases v with
  | plain j => rw [createFormFieldInArray, coreOf_createFormField]; exact ⟨rfl, rfl⟩
  | farr xs => exact ⟨rfl, rfl⟩
  | fobj fs => exact ⟨rfl, rfl⟩

theorem length_rebuildItems (p : List Key) (i : Nat) (xs : List Field) :
    (rebuildItems p i xs).length = xs.length := by
  induction xs generalizing i with
  | nil => rfl
  | cons f rest ih => simp [rebuildItems, ih]

theorem allFreshL_rebuildItems (p : List Key) (i : Nat) (xs : List Field) :
    allFreshL (rebuildItems p i xs) = true := by
  induction xs generalizing i with
  | nil => rfl
  | cons f rest ih =>
      rw [rebuildItems, allFreshL, allFresh_createFormFieldInArray, ih]
      rfl

theorem get_rebuildItems (p : List Key) (xs : List Field) :
    ∀ (i0 i : Nat) (h : i < xs.length),
      (rebuildItems p i0 xs).get ⟨i, by rw [length_rebuildItems]; exact h⟩ =
        createFormFieldInArray (coreOf (xs.get ⟨i, h⟩)).value p (i0 + i) := by
  induction xs with
  | nil => intro i0 i h; exact absurd h (by simp)
  | cons f rest ih =>
      intro i0 i h
      cases i with
      | zero => simp [rebuildItems]
      | succ j =>
          have hj : j < rest.length := by simpa using Nat.lt_of_succ_lt_succ h
          have := ih (i0 + 1) j hj
          simp only [rebuildItems, List.get_cons_succ]
          rw [this]
          congr 1
          omega

theorem jsEqPrim_eq (A B : JVal) (h : jsEqPrim (.plain A) (.plain B) = true) : A = B := by
  cases A <;> cases B <;> simp_all [jsEqPrim]

theorem updateItemAt_get (index : Nat) (u : Field → Except Unit Field) :
    ∀ (i0 : Nat) (xs ys : List Field), updateItemAt index u i0 xs = .ok ys →
      ys.length = xs.length ∧
      ∀ (j : Nat) (hj : j < xs.length), i0 + j = index →
        ∃ fc, u (xs.get ⟨j, hj⟩) = .ok fc ∧ ys.get? j = some fc := by
  intro i0 xs
  induction xs generalizing i0 with
  | nil =>
      intro ys h
      simp [updateItemAt] at h
      subst h
      exact ⟨rfl, by intro j hj; exact absurd hj (by simp)⟩
  | cons f rest ih =>
      intro ys h
      rw [updateItemAt] at h
      by_cases hi : i0 = index
      · rw [if_pos hi] at h
        cases hcall : u f with
        | error e =>
            rw [hcall] at h
            simp only [bind, Except.bind] at h
            exact Except.noConfusion h
        | ok a =>
            rw [hcall] at h
            cases hrec : updateItemAt index u (i0 + 1) rest with
            | error e =>
                rw [hrec] at h
                simp only [bind, Except.bind, Functor.map, Except.map] at h
                exact Except.noConfusion h
            | ok r2 =>
                rw [hrec] at h
                simp only [bind, Except.bind, Functor.map, Except.map] at h
                obtain rfl := Except.ok.inj h
                obtain ⟨hlen, hget⟩ := ih (i0 + 1) r2 hrec
                refine ⟨by simp [hlen], ?_⟩
                intro j hj hidx
                cases j with
                | zero => exact ⟨a, hcall, rfl⟩
                | succ j2 =>
                    have hj2 : j2 < rest.length := by simpa using Nat.lt_of_succ_lt_succ hj
                    have := hget j2 hj2 (by omega)
                    simpa using this
      · rw [if_neg hi] at h
        cases hrec : updateItemAt index u (i0 + 1) rest with
        | error e =>
            rw [hrec] at h
            simp only [bind, Except.bind, pure, Except.pure, Functor.map, Except.map] at h
            exact Except.noConfusion h
        | ok r2 =>
            rw [hrec] at h
            simp only [bind, Except.bind, pure, Except.pure, Functor.map, Except.map] at h
            obtain rfl := Except.ok.inj h
            obtain ⟨hlen, hget⟩ := ih (i0 + 1) r2 hrec
            refine ⟨by simp [hlen], ?_⟩
            intro j hj hidx
            cases j with
            | zero => exact absurd (by omega : i0 = index) hi
            | succ j2 =>
                have hj2 : j2 < rest.length := by simpa using Nat.lt_of_succ_lt_succ hj
                have := hget j2 hj2 (by omega)
                simpa using this
/-- A one-key record form, the concrete submit input of the evaluations
below. -/
def demoC2root : Field := createFormField (.obj [("id", .str "")]) []

/-- Claim C2 (code bug witnessed at a concrete input): on `submit()` from
idle, the synchronous touch pass marks the root `touched`/`disabled` but
leaves the child reachable through `fields` unmarked — `mapFieldsDeep`
writes the updated child copies into the root's `value` (which stops being
a plain value) instead of into `fields`. -/
theorem submit_touch_misses_children :
    (coreOf (submitRun none demoC2root false).touchedState).touched = true ∧
    (coreOf (submitRun none demoC2root false).touchedState).disabled = true ∧
    ((fieldsOf (submitRun none demoC2root false).touchedState).lookup "id").map
        (fun f => (coreOf f).touched) = some false ∧
    ((fieldsOf (submitRun none demoC2root false).touchedState).lookup "id").map
        (fun f => (coreOf f).disabled) = some false ∧
    (coreOf (submitRun none demoC2root false).touchedState).value.isPlain = false :=
  ⟨rfl, rfl, rfl, rfl, rfl⟩

/-- Claim C3 (code bug witnessed at a concrete input): a successful submit
of a record-shaped form invokes the external onSubmit callback with the
root's post-touch-pass `value`, which is a record of field nodes rather
than the plain value the tree was built from. -/
theorem submit_arg_not_plain :
    (coreOf demoC2root).value = FVal.plain (.obj [("id", .str "")]) ∧
    (submitRun none demoC2root false).submitArg.map FVal.isPlain = some false :=
  ⟨rfl, rfl⟩

/-- Claim C1: `submit()` invokes the external onSubmit callback if and only
if the tree obtained by merging the on-submit validation results has no
node (root or descendant through `items`/`fields`) carrying a truthy
error. -/
theorem submit_gating (validation : Option VRule) (root : Field) (m : Field)
    (h : (submitRun validation root false).merged = .ok m) :
    (submitRun validation root false).submitArg ≠ none ↔
      ∀ e ∈ errorsOf m, e.truthy = false := by
  unfold submitRun at h ⊢
  simp only [Bool.false_eq_true, if_false] at h ⊢
  cases hm : mergeInValidationResults (mapFieldsDeep touchDisable root) validation with
  | error e =>
      rw [hm] at h
      exact Except.noConfusion h
  | ok m2 =>
      rw [hm] at h
      dsimp only at h ⊢
      by_cases hc : containsError m2 = true
      · rw [if_pos hc] at h ⊢
        dsimp only at h ⊢
        obtain rfl := Except.ok.inj h
        rw [containsError_eq_any] at hc
        simp only [List.any_eq_true] at hc
        obtain ⟨e, he, ht⟩ := hc
        constructor
        · intro habs
          exact absurd rfl habs
        · intro hall
          exact absurd (hall e he) (by simp [ht])
      · rw [if_neg hc] at h ⊢
        dsimp only at h ⊢
        obtain rfl := Except.ok.inj h
        rw [containsError_eq_any] at hc
        constructor
        · intro _ e he
          cases het : e.truthy
          · rfl
          · exact absurd (by rw [List.any_eq_true]; exact ⟨e, he, het⟩) hc
        · intro _ habs
          exact Option.noConfusion habs

def w1root : Field := createFormField (.str "go") []

/-- Witness for C1 at a concrete error-free form. -/
theorem submit_gating_witness :
    (submitRun none w1root false).submitArg ≠ none :=
  (submit_gating none w1root (mapFieldsDeep touchDisable w1root) rfl).mpr (by decide)

/-- Claim C4: when a node carries both an onChange and an onSubmit rule and
onChange yields a truthy error for the node's current value, `validateValue`
returns exactly that error and the validation pass merges it into the node;
the onSubmit validator (arbitrary here) has no effect. -/
theorem onChange_error_wins (f g : FVal → VResult) (it : Option VRule)
    (fl : Option (List (String × VRule))) (c : Core FVal) (e : ErrVal)
    (hf : awaitVR (f c.value) = .ok e) (he : e.truthy = true) :
    validateValue c.value (some (.mk (some f) (some g) it fl)) = .ok e ∧
    mergeInValidationResults (.prim c) (some (.mk (some f) (some g) it fl)) =
      .ok (.prim { c with error := e }) := by
  have h1 : validateValue c.value (some (.mk (some f) (some g) it fl)) = .ok e := by
    simp only [validateValue, VRule.onChange]
    rw [hf]
    simp [bind, Except.bind, he, pure, Except.pure]
  refine ⟨h1, ?_⟩
  rw [mergeInValidationResults, h1]
  simp [bind, Except.bind, pure, Except.pure]

def w4core : Core FVal := basicCore [] (.plain (.str "v"))

/-- Witness for C4 at a concrete pair of validators. -/
theorem onChange_error_wins_witness :
    validateValue w4core.value
        (some (.mk (some fun _ => .sync (.str "bad")) (some fun _ => .sync (.str "other"))
          none none)) = .ok (.str "bad") ∧
    mergeInValidationResults (.prim w4core)
        (some (.mk (some fun _ => .sync (.str "bad")) (some fun _ => .sync (.str "other"))
          none none)) = .ok (.prim { w4core with error := .str "bad" }) :=
  onChange_error_wins (fun _ => .sync (.str "bad")) (fun _ => .sync (.str "other"))
    none none w4core (.str "bad") rfl rfl

/-- Claim C6: a pending asynchronous onChange run triggered by `set(A)`
commits nothing — neither its resolved value nor the rejection sentinel —
once the field's current primitive value is some B distinct from A; the
value-equality guard discards the stale result. -/
theorem stale_async_discarded (A B : JVal) (res : ErrVal) (c : Core FVal)
    (hv : c.value = .plain B) (hne : A ≠ B) :
    commitAsync (.plain A) res c = c ∧
    ∀ f : FVal → VResult, pendingResolution f (.plain A) c = c := by
  have heq : jsEqPrim (.plain A) (.plain B) = false := by
    cases hj : jsEqPrim (.plain A) (.plain B)
    · rfl
    · exact absurd (jsEqPrim_eq A B hj) hne
  have h1 : ∀ r : ErrVal, commitAsync (.plain A) r c = c := by
    intro r
    unfold commitAsync
    rw [hv, heq]
    simp
  refine ⟨h1 res, ?_⟩
  intro f
  cases hfa : f (.plain A) with
  | sync e => simp [pendingResolution, hfa]
  | throws => simp [pendingResolution, hfa]
  | async e => simp only [pendingResolution, hfa]; exact h1 e
  | rejects => simp only [pendingResolution, hfa]; exact h1 (.str "Validation failed")

def w6core : Core FVal := basicCore [] (.plain (.str "B"))

/-- Witness for C6: the resolution of a run triggered by value "A" leaves a
field currently holding "B" unchanged. -/
theorem stale_async_discarded_witness :
    commitAsync (.plain (.str "A")) (.str "late") w6core = w6core :=
  (stale_async_discarded (.str "A") (.str "B") (.str "late") w6core rfl (by simp)).1

def throwingRule : VRule := .mk none (some fun _ => .throws) none none

/-- Claim C5 counterexample: a validator that throws during the submit
validation pass is not converted to a sentinel error; the failure escapes
the merge (`Except.error`, the model of an uncaught rejection reaching the
caller of `submit()`), and a synchronously throwing onChange validator
likewise escapes from `set()`. -/
theorem validator_failure_escapes :
    (submitRun (some throwingRule) (createFormField (.str "") []) false).merged = .error () ∧
    (submitRun (some throwingRule) (createFormField (.str "") []) false).submitArg = none ∧
    setOnPrim (some fun _ => .throws) (createFormField (.str "a") []) (.str "b") = .error () :=
  ⟨rfl, rfl, rfl⟩

/-- Claim C5 (amended): only the change path's asynchronous rejection is
converted: an onChange validator whose promise rejects during `set()` first
yields the pending `validating` state, and its registered resolution commits
the fixed sentinel error "Validation failed" exactly like a normal
validation error, provided the field still holds the triggering value. -/
theorem async_reject_sentinel (f : FVal → VResult) (A : JVal) (c : Core FVal)
    (hf : f (.plain A) = .rejects) (hv : c.value = .plain A)
    (hA : jsEqPrim (.plain A) (.plain A) = true) :
    executeValidation (some f) (.plain A) = .pending (.plain A) ∧
    pendingResolution f (.plain A) c =
      { c with error := .str "Validation failed", validating := false } := by
  constructor
  · simp [executeValidation, hf]
  · simp only [pendingResolution, hf, commitAsync, hv, hA]
    simp

def w5core : Core FVal := basicCore [] (.plain (.str "x"))

/-- Witness for the amended C5 at a concrete rejecting validator. -/
theorem async_reject_sentinel_witness :
    executeValidation (some fun _ => VResult.rejects) (.plain (.str "x")) =
      .pending (.plain (.str "x")) ∧
    pendingResolution (fun _ => VResult.rejects) (.plain (.str "x")) w5core =
      { w5core with error := .str "Validation failed", validating := false } :=
  async_reject_sentinel (fun _ => VResult.rejects) (.str "x") w5core rfl rfl rfl
/-- Claim C10: `remove(k)` rebuilds every remaining item from its raw value,
so every remaining item and all of its descendants come out with fresh state
(`touched=false`, `error=undefined`, `validating=false`, `disabled=false`),
whatever state they held before; the array node itself keeps its `path`,
`value` and `disabled` and is marked `touched`. -/
theorem remove_resets_item_state (oc : Option (FVal → VResult)) (k : Nat) (c : Core FVal)
    (items : List Field) (f2 : Field)
    (hres : removeOnArray oc k c items = .ok f2) :
    allFreshL (itemsOf f2) = true ∧ (coreOf f2).touched = true ∧
    (coreOf f2).path = c.path ∧ (coreOf f2).value = c.value ∧
    (coreOf f2).disabled = c.disabled := by
  unfold removeOnArray at hres
  obtain ⟨hitems, htch, hpath, hval, hdis⟩ := setterWithValidation_ok oc _ f2 hres
  refine ⟨?_, ?_, ?_, ?_, ?_⟩
  · rw [hitems]
    exact allFreshL_rebuildItems c.path 0 (items.eraseIdx k)
  · rw [htch]
    rfl
  · rw [hpath]
    rfl
  · rw [hval]
    rfl
  · rw [hdis]
    rfl

def w10dirty : Field :=
  .prim { path := [Key.idx 0], touched := true, error := .str "old error",
          validating := true, disabled := true, value := .plain (.str "x") }

def w10core : Core FVal := basicCore [] (.plain (.arr [.str "x", .str "y"]))

/-- Witness for C10: removing index 0 of a two-item array whose first item
carries dirty state leaves only fresh items. -/
theorem remove_resets_item_state_witness :
    allFreshL (itemsOf (.arr { w10core with touched := true }
        (rebuildItems [] 0 ([w10dirty, createFormField (.str "y") [Key.idx 1]].eraseIdx 0)))) = true ∧
    (coreOf (.arr { w10core with touched := true }
        (rebuildItems [] 0 ([w10dirty, createFormField (.str "y") [Key.idx 1]].eraseIdx 0)))).touched = true ∧
    (coreOf (.arr { w10core with touched := true }
        (rebuildItems [] 0 ([w10dirty, createFormField (.str "y") [Key.idx 1]].eraseIdx 0)))).path = w10core.path ∧
    (coreOf (.arr { w10core with touched := true }
        (rebuildItems [] 0 ([w10dirty, createFormField (.str "y") [Key.idx 1]].eraseIdx 0)))).value = w10core.value ∧
    (coreOf (.arr { w10core with touched := true }
        (rebuildItems [] 0 ([w10dirty, createFormField (.str "y") [Key.idx 1]].eraseIdx 0)))).disabled = w10core.disabled :=
  remove_resets_item_state none 0 w10core [w10dirty, createFormField (.str "y") [Key.idx 1]] _ rfl

/-- Every re-built item of `remove` at its position: `get?` form. -/
theorem getq_rebuildItems (p : List Key) (xs : List Field) :
    ∀ (i0 i : Nat) (h : i < xs.length),
      (rebuildItems p i0 xs).get? i =
        some (createFormFieldInArray (coreOf (xs.get ⟨i, h⟩)).value p (i0 + i)) := by
  induction xs with
  | nil => intro i0 i h; exact absurd h (by simp)
  | cons f rest ih =>
      intro i0 i h
      cases i with
      | zero => simp [rebuildItems]
      | succ j =>
          have hj : j < rest.length := by simpa using Nat.lt_of_succ_lt_succ h
          have hrec := ih (i0 + 1) j hj
          show (rebuildItems p (i0 + 1) rest).get? j = _
          rw [hrec]
          have harith : i0 + 1 + j = i0 + (j + 1) := by omega
          rw [harith]
          rfl

/-- Claim C7: after `remove(k)` on an array with `n` items, the remaining
`n - 1` items are re-indexed: the item now at index `i` has `path` ending in
`i`, and its `value` is the value formerly held by the item at index `i`
when `i < k` and at index `i + 1` otherwise. -/
theorem remove_shifts_items (oc : Option (FVal → VResult)) (k : Nat) (c : Core FVal)
    (items : List Field) (f2 : Field)
    (hres : removeOnArray oc k c items = .ok f2)
    (hk : k < items.length) (i : Nat) (hi : i + 1 < items.length) :
    (itemsOf f2).length = items.length - 1 ∧
    ((itemsOf f2).get? i).map (fun fi => (coreOf fi).path) =
      some (c.path ++ [Key.idx i]) ∧
    ((itemsOf f2).get? i).map (fun fi => (coreOf fi).value) =
      some (coreOf (items.get ⟨if i < k then i else i + 1, by split <;> omega⟩)).value := by
  unfold removeOnArray at hres
  obtain ⟨hitems, -, -, -, -⟩ := setterWithValidation_ok oc _ f2 hres
  have hlen : (itemsOf f2).length = items.length - 1 := by
    rw [hitems]
    dsimp only [itemsOf]
    rw [length_rebuildItems, List.length_eraseIdx, if_pos hk]
  have hie : i < (items.eraseIdx k).length := by
    rw [List.length_eraseIdx, if_pos hk]
    omega
  have hq : (itemsOf f2).get? i =
      some (createFormFieldInArray (coreOf ((items.eraseIdx k).get ⟨i, hie⟩)).value c.path (0 + i)) := by
    rw [hitems]
    exact getq_rebuildItems c.path (items.eraseIdx k) 0 i hie
  have herase : (coreOf ((items.eraseIdx k).get ⟨i, hie⟩)).value =
      (coreOf (items.get ⟨if i < k then i else i + 1, by split <;> omega⟩)).value := by
    congr 1
    have hgi := List.getElem_eraseIdx items k i (by simpa using hie)
    rw [List.get_eq_getElem, List.get_eq_getElem, hgi]
    split
    · simp
    · simp
  obtain ⟨hpath, hval⟩ := core_createFormFieldInArray
    (coreOf ((items.eraseIdx k).get ⟨i, hie⟩)).value c.path (0 + i)
  refine ⟨hlen, ?_, ?_⟩
  · rw [hq, Option.map_some', hpath]
    simp
  · rw [hq, Option.map_some', hval, herase]
def helloField : Field := createFormField (.str "hello") []

def fooObj : JVal := .obj [("foo", .str "bar")]

/-- Claim C8 counterexample: a primitive field whose current value is the
string "hello" (neither null nor undefined) still transforms into a complex
field when set to an object value, so the transformation is not restricted
to null/undefined-valued primitives. -/
theorem primitive_set_variant_cex :
    (coreOf helloField).value = FVal.plain (.str "hello") ∧
    variantOf helloField = Variant.primitive ∧
    setOnPrim none helloField fooObj = .ok (createComplexFromValue fooObj []) ∧
    variantOf (createComplexFromValue fooObj []) = Variant.complex :=
  ⟨rfl, rfl, rfl, rfl⟩

/-- Claim C8 (amended): a `set(v)` on a field that is not currently complex
replaces it by a freshly built complex field exactly when `v` is a non-null,
non-Date object value (the current value is irrelevant); for any other `v`
the variant is preserved and the value stored. -/
theorem primitive_set_transform (oc : Option (FVal → VResult)) (prev : Field) (v : JVal)
    (hp : variantOf prev = Variant.primitive) :
    (isObjLike v = true →
      setOnPrim oc prev v = .ok (createComplexFromValue v (coreOf prev).path)) ∧
    (isObjLike v = false → ∀ f2, setOnPrim oc prev v = .ok f2 →
      variantOf f2 = Variant.primitive ∧ (coreOf f2).value = .plain v) := by
  constructor
  · intro hobj
    unfold setOnPrim
    rw [hobj, hp]
    simp
  · intro hnot f2 h
    unfold setOnPrim at h
    rw [hnot] at h
    simp only [Bool.false_and, Bool.false_eq_true, if_false] at h
    refine ⟨?_, value_setOnPrim oc prev v f2 ?_⟩
    · cases hex : executeValidation oc (.plain v) with
      | thrown => rw [hex] at h; exact Except.noConfusion h
      | immediate e =>
          rw [hex] at h
          obtain rfl := Except.ok.inj h
          rw [variantOf_withCore]
          exact hp
      | pending t =>
          rw [hex] at h
          obtain rfl := Except.ok.inj h
          rw [variantOf_withCore]
          exact hp
    · unfold setOnPrim
      rw [hnot]
      simp only [Bool.false_and, Bool.false_eq_true, if_false]
      exact h

def nullField : Field := createFormField .null []

/-- Witness for the amended C8, matching the specification's example: a
primitive field holding null, set to an object, becomes a complex field
whose field "foo" holds the value "bar". -/
theorem primitive_set_transform_witness :
    setOnPrim none nullField fooObj = .ok (createComplexFromValue fooObj []) ∧
    ((fieldsOf (createComplexFromValue fooObj [])).lookup "foo").map
        (fun f => (coreOf f).value) = some (FVal.plain (.str "bar")) :=
  ⟨(primitive_set_transform none nullField fooObj rfl).1 rfl, rfl⟩

/-- Claim C9: after `items[index].set(newValue)` on an array field, the item
node at `index` holds `newValue`, but the array node's own raw `value` at
`index` is overwritten with the element value captured when that item's
field node was built (`builtVal`), so the two can diverge. -/
theorem array_child_set_divergence (arrOC childOC : Option (FVal → VResult))
    (builtVal : JVal) (index : Nat) (newValue : JVal) (c : Core FVal)
    (items : List Field) (vs : List JVal) (f2 : Field)
    (hv : c.value = .plain (.arr vs))
    (hres : arrayChildSet arrOC childOC builtVal index newValue c items = .ok f2)
    (hidx : index < items.length) :
    ((itemsOf f2).get? index).map (fun fi => (coreOf fi).value) =
      some (FVal.plain newValue) ∧
    (coreOf f2).value = .plain (.arr (vs.set index builtVal)) := by
  unfold arrayChildSet at hres
  cases hup : updateItemAt index (fun child => setOnPrim childOC child newValue) 0 items with
  | error e =>
      rw [hup] at hres
      simp only [bind, Except.bind] at hres
      exact Except.noConfusion hres
  | ok its =>
      rw [hup] at hres
      simp only [bind, Except.bind] at hres
      obtain ⟨hitems, -, -, hval, -⟩ := setterWithValidation_ok arrOC _ f2 hres
      obtain ⟨hlen, hget⟩ := updateItemAt_get index
        (fun child => setOnPrim childOC child newValue) 0 items its hup
      obtain ⟨fc, hfc, hgot⟩ := hget index hidx (Nat.zero_add index)
      constructor
      · rw [hitems]
        dsimp only [itemsOf]
        rw [hgot, Option.map_some']
        rw [value_setOnPrim childOC _ newValue fc hfc]
      · rw [hval]
        dsimp only [coreOf]
        rw [hv]
        rfl

def w9core : Core FVal := basicCore [] (.plain (.arr [.str "a"]))

def w9item : Field := createFormField (.str "a") [Key.idx 0]

def w9f2 : Field :=
  .arr { path := [], touched := false, error := .undefined, validating := false,
         disabled := false, value := .plain (.arr [.str "a"]) }
    [.prim { path := [Key.idx 0], touched := false, error := .undefined, validating := false,
             disabled := false, value := .plain (.str "b") }]

/-- Witness for C9: setting item 0 of `["a"]` to "b" leaves the item holding
"b" while the array's raw value still holds the build-time "a". -/
theorem array_child_set_divergence_witness :
    ((itemsOf w9f2).get? 0).map (fun fi => (coreOf fi).value) =
      some (FVal.plain (.str "b")) ∧
    (coreOf w9f2).value = .plain (.arr ([JVal.str "a"].set 0 (.str "a"))) :=
  array_child_set_divergence none none (.str "a") 0 (.str "b") w9core [w9item]
    [.str "a"] w9f2 rfl rfl (by decide)
def w7core : Core FVal := basicCore [] (.plain (.arr [.str "x", .str "y"]))

def w7items : List Field :=
  [createFormField (.str "x") [Key.idx 0], createFormField (.str "y") [Key.idx 1]]

/-- Witness for C7: removing index 0 of a two-item array leaves one item,
whose path ends in 0 and whose value is the value formerly at index 1. -/
theorem remove_shifts_items_witness :
    (itemsOf (.arr { w7core with touched := true }
        (rebuildItems [] 0 (w7items.eraseIdx 0)))).length = w7items.length - 1 ∧
    ((itemsOf (.arr { w7core with touched := true }
        (rebuildItems [] 0 (w7items.eraseIdx 0)))).get? 0).map (fun fi => (coreOf fi).path) =
      some (w7core.path ++ [Key.idx 0]) ∧
    ((itemsOf (.arr { w7core with touched := true }
        (rebuildItems [] 0 (w7items.eraseIdx 0)))).get? 0).map (fun fi => (coreOf fi).value) =
      some (coreOf (w7items.get ⟨if 0 < 0 then 0 else 0 + 1, by decide⟩)).value :=
  remove_shifts_items none 0 w7core w7items _ rfl (by decide) 0 (by decide)
end UseForm
